import Mathlib

/-!
Verification development for the code-to-prompt repository.

This file shallowly embeds the path-traversal and filtering engine of the
repository (src/lib/processor.ts, src/lib/fileTree.ts, src/lib/pathUtils.ts,
src/cli/ignore.ts, src/lib/constants.ts) into Lean and proves properties of
the embedding.

Modelling conventions:
- Paths are POSIX strings (the Node path module is platform dependent; all
  path helpers below model the posix flavour, which is the one exercised by
  the repository tests and the spec scenarios).
- The filesystem seen by one traversal is a finite tree (FSNode below).
  A node records the outcomes of the fs primitives used by the code:
  stat failure, file read failure (file none), directory-listing failure
  (dirErr), or success.
- Asynchronous execution: the traversal engine runs under single-threaded
  cooperative scheduling.  Statistics increments are single synchronous
  statements, and the set of emitted files and the final counters are
  independent of the interleaving, so the per-run behaviour is modelled by
  a sequential recursion processing sibling entries in the sorted order in
  which the code issues them.  The concurrency limiter itself is modelled
  separately, by an explicit event semantics (see the Limiter section).
- External libraries (minimatch, ignore) are not part of the repository;
  their matchers enter the model as opaque function parameters.
-/

/-! ## Character-level string helpers (structural, kernel-evaluable) -/

/-- Split a character list on the slash character, JS String.split semantics:
every separator splits, empty chunks are kept, splitting the empty list
yields one empty chunk. The accumulator holds the current chunk reversed. -/
def splitSlashAux : List Char → List Char → List (List Char)
  | [], acc => [acc.reverse]
  | c :: cs, acc =>
      if c = '/' then acc.reverse :: splitSlashAux cs []
      else splitSlashAux cs (c :: acc)

/-- Model of the JS expression p.split(sep) with sep the POSIX path separator. -/
def splitSlash (s : String) : List String :=
  (splitSlashAux s.toList []).map String.mk

/-- Join character chunks with a slash (JS Array.join with the path separator). -/
def joinSlashCL : List (List Char) → List Char
  | [] => []
  | [x] => x
  | x :: xs => x ++ '/' :: joinSlashCL xs

/-- Model of the JS expression parts.join(sep) with sep the POSIX separator. -/
def joinSlash (l : List String) : String :=
  String.mk (joinSlashCL (l.map String.toList))

/-- Model of the JS test s.startsWith(pre). -/
def strStartsWith (s pre : String) : Bool :=
  pre.toList.isPrefixOf s.toList

/-- Model of the JS expression s.toLowerCase() (ASCII-relevant part). -/
def strToLower (s : String) : String :=
  String.mk (s.toList.map Char.toLower)

/-- True when the string ends with the POSIX separator. -/
def endsWithSlash (a : String) : Bool :=
  match a.toList.reverse with
  | '/' :: _ => true
  | _ => false

/-! ## Models of the Node path module (posix flavour) -/

/-- Model of path.basename: strip trailing separators, then keep the part
after the last remaining separator. -/
def pathBasename (p : String) : String :=
  String.mk (((p.toList.reverse.dropWhile (· = '/')).takeWhile (· ≠ '/')).reverse)

/-- Model of path.dirname: strip the basename and its separators; the empty
remainder maps to the root for absolute paths and to the dot for others. -/
def pathDirname (p : String) : String :=
  let r := ((p.toList.reverse.dropWhile (· = '/')).dropWhile (· ≠ '/')).dropWhile (· = '/')
  if r.isEmpty then (if strStartsWith p "/" then "/" else ".") else String.mk r.reverse

/-- Model of path.extname: the dot-inclusive extension of the basename; no
dot, or a dot only in leading position, gives the empty string.  (Node also
special-cases a basename consisting purely of dots; such strings never occur
as directory entry names and the model does not reproduce that corner.) -/
def pathExtname (p : String) : String :=
  let b := (pathBasename p).toList
  let after := b.reverse.takeWhile (fun c => c ≠ '.')
  if after.length = b.length then ""
  else if b.length - after.length - 1 = 0 then ""
  else String.mk ('.' :: after.reverse)

/-- Model of path.join(dirPath, entryName) for the shapes the code uses
(an absolute directory path joined with a plain entry name). -/
def joinPath (a b : String) : String :=
  if a = "" then b else if endsWithSlash a then a ++ b else a ++ "/" ++ b

/-- One step of path normalisation: drop empty and dot segments, let a
dot-dot segment pop the previous one, keep anything else. -/
def normStep (acc : List String) (seg : String) : List String :=
  if seg = "" || seg = "." then acc
  else if seg = ".." then acc.dropLast
  else acc ++ [seg]

/-- Normalisation pass of path.resolve over the separated segments. -/
def normSegs (l : List String) : List String :=
  l.foldl normStep []

/-- Model of path.resolve for an absolute input: collapse separators and
dot segments; the result is the root or a slash-led join of plain segments. -/
def normalizeAbs (s : String) : String :=
  "/" ++ joinSlash (normSegs (splitSlash s))

/-- Model of path.resolve(p) against a current working directory. -/
def resolvePath (cwd p : String) : String :=
  if strStartsWith p "/" then normalizeAbs p else normalizeAbs (cwd ++ "/" ++ p)

/-- The non-root segments of an absolute path after normalisation. -/
def realSegs (p : String) : List String :=
  (splitSlash (normalizeAbs p)).filter (fun s => s ≠ "")

/-- Drop the longest common leading run of two segment lists. -/
def dropCommon : List String → List String → List String × List String
  | a :: as, b :: bs => if a = b then dropCommon as bs else (a :: as, b :: bs)
  | as, bs => (as, bs)

/-- Model of path.relative(fromP, toP) for absolute inputs: resolve both,
drop the common leading segments, then climb with dot-dot segments and
descend into the remainder. -/
def pathRelative (fromP toP : String) : String :=
  let pr := dropCommon (realSegs fromP) (realSegs toP)
  joinSlash (List.replicate pr.1.length ".." ++ pr.2)

/-- A path already in the normal form produced by path.resolve: it starts
with the separator and its split is the root marker followed either by the
single empty chunk (the root itself) or by plain segments free of empty,
dot and dot-dot chunks. -/
def isNormalAbsPath (p : String) : Bool :=
  strStartsWith p "/" &&
    match splitSlash p with
    | s0 :: segs =>
        (s0 = "") && ((segs = [""]) || segs.all (fun s => s ≠ "" && s ≠ "." && s ≠ ".."))
    | [] => false

/-! ## Constants (src/lib/constants.ts) -/

/-- The binary-extension denylist BINARY_FILE_EXTENSIONS, copied verbatim. -/
def BINARY_FILE_EXTENSIONS : List String :=
  [ ".png", ".jpg", ".jpeg", ".gif", ".bmp", ".tiff", ".webp", ".ico", ".svg",
    ".exe", ".dll", ".so", ".dylib", ".bin", ".class", ".pyc",
    ".zip", ".gz", ".tar", ".rar", ".7z", ".bz2", ".xz",
    ".mp3", ".mp4", ".avi", ".mov", ".wav", ".ogg", ".flac", ".wmv", ".mkv",
    ".pdf", ".doc", ".docx", ".xls", ".xlsx", ".ppt", ".pptx", ".pages", ".key", ".numbers",
    ".ttf", ".otf", ".woff", ".woff2", ".eot",
    ".db", ".sqlite", ".mdb",
    ".iso", ".dmg", ".img" ]

/-! ## Filesystem model

A finite directory tree as one traversal observes it.  Each constructor
records how the fs primitives behave at that path: statErr means fsp.stat
rejects there; file none means stat succeeds, isFile() holds, and
fsp.readFile rejects; dirErr means stat succeeds, isDirectory() holds, and
fsp.readdir rejects; dir entries means the listing succeeds. -/

mutual
inductive FSNode where
  | statErr : FSNode
  | file (content : Option String) : FSNode
  | dirErr : FSNode
  | dir (entries : FSEntries) : FSNode

inductive FSEntries where
  | nil : FSEntries
  | cons (name : String) (node : FSNode) (rest : FSEntries) : FSEntries
end

/-! ## Traversal engine model (src/lib/processor.ts, processPath) -/

/-- The per-run inputs of processPath (interface ProcessPathOptions).
The writer, format flags, tree flag and debug logger are sinks with no
influence on control flow; emission is recorded in the result instead.
mainIg is the wrapped ignore matcher (total, never throws - see the ignore
section); minimatch is the external glob matcher, applied as
minimatch(path, pattern, dot true) in the code. -/
structure ProcessOptions where
  extensions : List String
  includeHidden : Bool
  ignoreFilesOnly : Bool
  ignorePatterns : List String
  mainIg : String → Bool
  minimatch : String → String → Bool
  baseIgnorePath : String
  includeBinaryFiles : Bool

/-- Outcome of one traversal: the two statistics counters of the run
(options.stats), the emitted files in issue order, and two instrumentation
counters used to state the statistics invariant - visited counts file nodes
whose stat succeeded, uncounted counts visited files that ended in neither
statistics counter (hidden skip, gitignore skip, read error). -/
structure TraverseResult where
  found : Nat
  skipped : Nat
  visited : Nat
  uncounted : Nat
  emitted : List (String × String)
deriving DecidableEq, Repr

/-- The all-zero result (a branch that returns without touching anything). -/
def zeroRes : TraverseResult := ⟨0, 0, 0, 0, []⟩

/-- Merge the outcomes of two branches (counter sums, emissions in order). -/
def combineRes (a b : TraverseResult) : TraverseResult :=
  ⟨a.found + b.found, a.skipped + b.skipped, a.visited + b.visited,
   a.uncounted + b.uncounted, a.emitted ++ b.emitted⟩

/-- Merge a list of branch outcomes left to right. -/
def combineAll (l : List TraverseResult) : TraverseResult :=
  l.foldl combineRes zeroRes

/-- Insertion into a name-sorted list of keyed values (model of the
localeCompare sort of directory entries; entry names within one directory
are distinct, so any strict total order determines the result and the
code-point order stands in for the locale order). -/
def insertByName {α : Type} (x : String × α) : List (String × α) → List (String × α)
  | [] => [x]
  | y :: ys =>
      if x.1.toList < y.1.toList then x :: y :: ys else y :: insertByName x ys

/-- Name-sort a keyed list (model of entries.sort by localeCompare). -/
def sortByName {α : Type} : List (String × α) → List (String × α)
  | [] => []
  | x :: xs => insertByName x (sortByName xs)

/-- The base-relative path used for ignore checks: path.relative of the
base, with the empty result (the base itself) adjusted to the dot. -/
def relAdjusted (base target : String) : String :=
  let r := pathRelative base target
  if r = "" then "." else r

mutual
/-- Model of processPath(targetPath, options), one filesystem node at a time.

Control flow mirrors src/lib/processor.ts lines 79-266:
stat (statErr aborts the branch); the hidden check on the basename; the
gitignore check on the adjusted relative path (the wrapped matcher is total,
so the try/catch around it has no separate branch here); then the file flow
(custom ignore patterns, binary denylist on the lowercased extension,
extension allow-list, read and print) or the directory flow (custom ignore
patterns unless ignoreFilesOnly, listing, per-entry recursion).
The hidden and gitignore checks depend only on names, so stating them inside
each constructor branch is the same control flow as the source, where they
precede the isFile/isDirectory dispatch.  Sibling recursion is sequential in
the sorted issue order (recursion results are keyed by entry name, then
sorted, then merged - extensionally the sort-then-recurse of the source). -/
def processPath (opts : ProcessOptions) (targetPath : String) : FSNode → TraverseResult
  | .statErr => zeroRes
  | .file content =>
      if !opts.includeHidden && strStartsWith (pathBasename targetPath) "." then
        { zeroRes with visited := 1, uncounted := 1 }
      else if opts.mainIg (relAdjusted opts.baseIgnorePath targetPath) then
        { zeroRes with visited := 1, uncounted := 1 }
      else if opts.ignorePatterns.any
          (fun pat => opts.minimatch (pathRelative opts.baseIgnorePath targetPath) pat) then
        { zeroRes with visited := 1, skipped := 1 }
      else if BINARY_FILE_EXTENSIONS.contains (strToLower (pathExtname targetPath))
          && !opts.includeBinaryFiles then
        { zeroRes with visited := 1, skipped := 1 }
      else if !opts.extensions.isEmpty
          && !(opts.extensions.any (fun ext => strToLower (pathExtname targetPath) = ext)) then
        { zeroRes with visited := 1, skipped := 1 }
      else
        match content with
        | some c => { zeroRes with visited := 1, found := 1, emitted := [(targetPath, c)] }
        | none => { zeroRes with visited := 1, uncounted := 1 }
  | .dirErr =>
      zeroRes
  | .dir entries =>
      if !opts.includeHidden && strStartsWith (pathBasename targetPath) "." then
        zeroRes
      else if opts.mainIg (relAdjusted opts.baseIgnorePath targetPath) then
        zeroRes
      else if !opts.ignoreFilesOnly && opts.ignorePatterns.any
          (fun pat => opts.minimatch (pathRelative opts.baseIgnorePath targetPath) pat) then
        zeroRes
      else
        combineAll ((sortByName (processEntriesPairs opts targetPath entries)).map Prod.snd)

/-- Recurse over the raw directory listing, pairing each entry name with the
outcome of processing path.join(dirPath, name). -/
def processEntriesPairs (opts : ProcessOptions) (dirPath : String) :
    FSEntries → List (String × TraverseResult)
  | .nil => []
  | .cons name node rest =>
      (name, processPath opts (joinPath dirPath name) node)
        :: processEntriesPairs opts dirPath rest
end

/-- The body of processPath from the gitignore check on (source lines
109-266), with the hidden check removed; directory entries still recurse
through the full processPath.  Used to state that, with includeHidden set,
a hidden name proceeds to the remaining filters unchanged. -/
def processPathAfterHidden (opts : ProcessOptions) (targetPath : String) : FSNode → TraverseResult
  | .statErr => zeroRes
  | .file content =>
      if opts.mainIg (relAdjusted opts.baseIgnorePath targetPath) then
        { zeroRes with visited := 1, uncounted := 1 }
      else if opts.ignorePatterns.any
          (fun pat => opts.minimatch (pathRelative opts.baseIgnorePath targetPath) pat) then
        { zeroRes with visited := 1, skipped := 1 }
      else if BINARY_FILE_EXTENSIONS.contains (strToLower (pathExtname targetPath))
          && !opts.includeBinaryFiles then
        { zeroRes with visited := 1, skipped := 1 }
      else if !opts.extensions.isEmpty
          && !(opts.extensions.any (fun ext => strToLower (pathExtname targetPath) = ext)) then
        { zeroRes with visited := 1, skipped := 1 }
      else
        match content with
        | some c => { zeroRes with visited := 1, found := 1, emitted := [(targetPath, c)] }
        | none => { zeroRes with visited := 1, uncounted := 1 }
  | .dirErr =>
      zeroRes
  | .dir entries =>
      if opts.mainIg (relAdjusted opts.baseIgnorePath targetPath) then
        zeroRes
      else if !opts.ignoreFilesOnly && opts.ignorePatterns.any
          (fun pat => opts.minimatch (pathRelative opts.baseIgnorePath targetPath) pat) then
        zeroRes
      else
        combineAll ((sortByName (processEntriesPairs opts targetPath entries)).map Prod.snd)

/-! ## Common-ancestor resolver (src/lib/pathUtils.ts, findCommonAncestor)

POSIX branch of the source.  The filesystem dependence of the single-path
branch (fs.statSync under try/catch) is a parameter isDir: some true means
the path is a directory, some false a non-directory, none a stat failure. -/

/-- The segment-scan loop of findCommonAncestor (source lines 64-74): keep
the leading components of the first path while every split path has the same
component at that index. -/
def takeCommon (comps : List (List String)) : Nat → List String → List String
  | _, [] => []
  | i, c :: rest =>
      if comps.all (fun p => decide (i < p.length) && decide (p.get? i = some c)) then
        c :: takeCommon comps (i + 1) rest
      else []

/-- Reconstruction of the ancestor path from the common components (source
lines 104-134, POSIX cases): a leading empty component marks the root (the
root alone renders as the bare separator, otherwise the separator plus the
join of the rest); no common component yields the empty string; otherwise
the plain join. -/
def rebuildAncestor : List String → String
  | [] => ""
  | s0 :: rest =>
      if s0 = "" then
        match rest with
        | [] => "/"
        | _ => "/" ++ joinSlash rest
      else joinSlash (s0 :: rest)

/-- Model of findCommonAncestor(paths): empty input falls back to the
working directory; a single path answers from statSync (directory: itself,
file or stat failure: its parent); several paths take the longest common
segment run of the resolved paths. -/
def findCommonAncestor (isDir : String → Option Bool) (cwd : String)
    (paths : List String) : String :=
  match paths with
  | [] => cwd
  | [p] =>
      let sp := resolvePath cwd p
      match isDir sp with
      | some true => sp
      | some false => pathDirname sp
      | none => pathDirname sp
  | _ =>
      let resolved := paths.map (resolvePath cwd)
      let comps := resolved.map splitSlash
      rebuildAncestor (takeCommon comps 0 (comps.headD []))

/-! ## Ignore-rule set (src/cli/ignore.ts, loadIgnore)

The external ignore library enters as parameters: a raw matcher may either
answer (ok) or throw (error).  The wrap helper of the source converts any
thrown error into the answer false. -/

/-- Model of the wrap helper (source lines 18-28): call the underlying
ignores and turn a thrown error into false. -/
def wrapIgnores (raw : String → Except String Bool) (p : String) : Bool :=
  match raw p with
  | .ok b => b
  | .error _ => false

/-- Modelled from the spec: the behaviour of the external ignore library
when constructed with no rules, which is absent from src; per the spec the
rule set then behaves as ignore nothing, so the raw matcher answers false
everywhere (and in particular never throws). -/
def emptyIgnoreRaw : String → Except String Bool :=
  fun _ => .ok false

/-- Trim of a rule line (JS String.trim, ASCII whitespace relevant part). -/
def trimStr (s : String) : String :=
  String.mk ((s.toList.dropWhile Char.isWhitespace).reverse.dropWhile Char.isWhitespace |>.reverse)

/-- Split a character list at newline characters, keeping empty chunks. -/
def splitNlAux : List Char → List Char → List (List Char)
  | [], acc => [acc.reverse]
  | c :: cs, acc =>
      if c = '\n' then acc.reverse :: splitNlAux cs []
      else splitNlAux cs (c :: acc)

/-- Model of the rule extraction (source lines 34-37): split the gitignore
text on newlines, trim every line, discard blanks and hash comments. -/
def parseGitignore (content : String) : List String :=
  (((splitNlAux content.toList []).map String.mk).map trimStr).filter
    (fun l => l ≠ "" && !strStartsWith l "#")

/-- Model of loadIgnore restricted to matcher construction (source lines
16-51): content none stands for an absent or unreadable gitignore file; a
non-empty rule list builds the library matcher and wraps it, otherwise the
wrapped empty matcher stays in place.  mk is the external construction
ignore().add(rules).ignores. -/
def loadIgnoreMatcher (mk : List String → String → Except String Bool)
    (content : Option String) : String → Bool :=
  match content with
  | none => wrapIgnores emptyIgnoreRaw
  | some c =>
      let rules := parseGitignore c
      if rules.isEmpty then wrapIgnores emptyIgnoreRaw
      else wrapIgnores (mk rules)

/-! ## Tree builder (src/lib/fileTree.ts, generateFileTree)

The collection walk is sequential in the source (awaited for loop), so the
model is a direct recursion returning Except: an uncaught rejection inside
the walk (only fsp.readdir is uncaught there) surfaces as error and rejects
the whole call, while stat failures are caught and yield no entries. -/

/-- Options of generateFileTree (interface FileTreeOptions); the optional
fields default to false and the empty list, matching the undefined checks
of the source. -/
structure FileTreeOptions where
  baseIgnorePath : String
  mainIg : String → Bool
  includeHidden : Bool
  includeBinaryFiles : Bool
  ignorePatterns : List String
  ignoreFilesOnly : Bool
  minimatch : String → String → Bool

mutual
/-- Model of the inner recurse(p) of generateFileTree (source lines 23-61):
gitignore on the non-empty relative path, then the hidden check, then stat
(a stat failure is caught and contributes nothing), then the custom ignore
patterns (files always skip on a match, directories only when the files-only
flag is off), then the directory listing (not guarded: a listing failure
escapes) or the binary gate for files.  The ok value lists admitted absolute
file paths in visit order. -/
def treeCollect (opts : FileTreeOptions) (p : String) : FSNode → Except String (List String)
  | .statErr =>
      .ok []
  | .file _ =>
      let rel := pathRelative opts.baseIgnorePath p
      if rel ≠ "" && opts.mainIg rel then .ok []
      else if !opts.includeHidden && strStartsWith (pathBasename p) "." then .ok []
      else if opts.ignorePatterns.any (fun pat => opts.minimatch rel pat) then .ok []
      else if !(BINARY_FILE_EXTENSIONS.contains (strToLower (pathExtname p)))
          || opts.includeBinaryFiles then .ok [p]
      else .ok []
  | .dirErr =>
      let rel := pathRelative opts.baseIgnorePath p
      if rel ≠ "" && opts.mainIg rel then .ok []
      else if !opts.includeHidden && strStartsWith (pathBasename p) "." then .ok []
      else if opts.ignorePatterns.any (fun pat => opts.minimatch rel pat)
          && !opts.ignoreFilesOnly then .ok []
      else .error ("readdir failure at " ++ p)
  | .dir entries =>
      let rel := pathRelative opts.baseIgnorePath p
      if rel ≠ "" && opts.mainIg rel then .ok []
      else if !opts.includeHidden && strStartsWith (pathBasename p) "." then .ok []
      else if opts.ignorePatterns.any (fun pat => opts.minimatch rel pat)
          && !opts.ignoreFilesOnly then .ok []
      else treeCollectEntries opts p entries

/-- The awaited for loop over one directory listing: visit children in
order, aborting on the first escaping rejection. -/
def treeCollectEntries (opts : FileTreeOptions) (dirPath : String) :
    FSEntries → Except String (List String)
  | .nil => .ok []
  | .cons name node rest => do
      let a ← treeCollect opts (joinPath dirPath name) node
      let b ← treeCollectEntries opts dirPath rest
      .ok (a ++ b)
end

/-- The awaited for loop of generateFileTree over the input paths. -/
def treeCollectRoots (opts : FileTreeOptions) :
    List (String × FSNode) → Except String (List String)
  | [] => .ok []
  | (p, node) :: rest => do
      let a ← treeCollect opts p node
      let b ← treeCollectRoots opts rest
      .ok (a ++ b)

/-- First-occurrence deduplication (the JS Set keeps insertion order). -/
def dedupAux : List String → List String → List String
  | _, [] => []
  | seen, x :: xs =>
      if seen.contains x then dedupAux seen xs else x :: dedupAux (x :: seen) xs

/-- Insertion sort of plain strings (JS Array.sort default order). -/
def insertStr (x : String) : List String → List String
  | [] => [x]
  | y :: ys => if x.toList < y.toList then x :: y :: ys else y :: insertStr x ys

/-- Sorted list of strings, code-point order. -/
def sortStrs : List String → List String
  | [] => []
  | x :: xs => insertStr x (sortStrs xs)

/-- Nested mapping keyed by path segment (type TreeNode of the source);
children keep insertion order, as JS object keys do. -/
inductive TreeNode where
  | mk (children : List (String × TreeNode)) : TreeNode

/-- Children of a tree node. -/
def TreeNode.children : TreeNode → List (String × TreeNode)
  | .mk cs => cs

/-- The nested-map insertion cur[part] ??= ... of the source: walk the
segments, descending into an existing child or appending a fresh one. -/
def insertSegs : List String → List (String × TreeNode) → List (String × TreeNode)
  | [], cs => cs
  | seg :: rest, cs =>
      match cs.lookup seg with
      | some t =>
          cs.map (fun c => if c.1 = seg then (seg, TreeNode.mk (insertSegs rest t.children)) else c)
      | none => cs ++ [(seg, TreeNode.mk (insertSegs rest []))]

/-- Renderer of the nested map (inner render of the source): one line per
child with the tee or corner connector, recursing with the extended prefix. -/
def renderChildren (pref : String) : List (String × TreeNode) → List String
  | [] => []
  | (name, TreeNode.mk sub) :: rest =>
      (pref ++ (if rest.isEmpty then "└── " else "├── ") ++ name)
        :: (renderChildren (pref ++ (if rest.isEmpty then "    " else "│   ")) sub
            ++ renderChildren pref rest)
termination_by l => sizeOf l
decreasing_by all_goals (simp_wf <;> omega)

/-- Model of generateFileTree(paths, options): collect admitted files (any
escaping rejection rejects the whole call), deduplicate, map to
base-relative form, sort, build the nested map, and render below the
literal root line. -/
def generateFileTreeModel (opts : FileTreeOptions)
    (roots : List (String × FSNode)) : Except String String := do
  let files ← treeCollectRoots opts roots
  let rels := (dedupAux [] files).map (fun p => pathRelative opts.baseIgnorePath p)
  let root := (sortStrs rels).foldl (fun cs r => insertSegs (splitSlash r) cs) []
  .ok (String.intercalate "\n" ("." :: renderChildren "" root))

mutual
/-- Removal of the entries whose stat fails, everywhere in a tree. -/
def pruneStatErr : FSNode → FSNode
  | .statErr => .statErr
  | .file c => .file c
  | .dirErr => .dirErr
  | .dir entries => .dir (pruneStatErrEntries entries)

/-- Drop listing entries whose node is a stat failure; recurse elsewhere. -/
def pruneStatErrEntries : FSEntries → FSEntries
  | .nil => .nil
  | .cons _ .statErr rest => pruneStatErrEntries rest
  | .cons name node rest => .cons name (pruneStatErr node) (pruneStatErrEntries rest)
end

/-- Drop root paths whose node is a stat failure and prune the rest. -/
def pruneStatErrRoots : List (String × FSNode) → List (String × FSNode)
  | [] => []
  | (_, .statErr) :: rest => pruneStatErrRoots rest
  | (p, node) :: rest => (p, pruneStatErr node) :: pruneStatErrRoots rest

mutual
/-- No directory in the tree fails its listing. -/
def noDirErr : FSNode → Bool
  | .statErr => true
  | .file _ => true
  | .dirErr => false
  | .dir entries => noDirErrEntries entries

/-- Listing-failure freedom for every entry of a listing. -/
def noDirErrEntries : FSEntries → Bool
  | .nil => true
  | .cons _ node rest => noDirErr node && noDirErrEntries rest
end

/-! ## Concurrency limiter (src/lib/processor.ts, class Limiter)

Event semantics of the limiter under the single-threaded cooperative
scheduler.  Tasks are opaque and carry a numeric id; a behaviour function
says whether the body fn() throws synchronously when invoked (true) or
returns a promise that settles later (false).  Two external events exist:
add t (a call limit.add submitting task t) and settle t (the promise of an
earlier admitted asynchronous task t resolving or rejecting, which runs the
finally handler).  Each event ends by running the admission loop next():
the source admits the queue head whenever running < concurrency, and a
synchronously throwing body decrements running again and calls next()
once more, cascading down the queue.  started and settled record admission
order and completion for the statements of the theorems; added records
every submitted id in submission order. -/

structure LimiterState where
  concurrency : Nat
  running : Nat
  queue : List Nat
  started : List Nat
  settled : List Nat
  added : List Nat
deriving DecidableEq, Repr

/-- The admission cascade of next() (source lines 47-52 with the thunk of
lines 24-41): pop the queue head while a slot is free; a synchronously
throwing body takes the slot and releases it within the same cascade
(running++ then running-- and another next()), an asynchronous body keeps
the slot until its settle event.  Returns the new queue, running count,
admission record and settlement record. -/
def runNextAux (beh : Nat → Bool) (conc : Nat) :
    List Nat → Nat → List Nat → List Nat → List Nat × Nat × List Nat × List Nat
  | [], running, started, settled => ([], running, started, settled)
  | t :: rest, running, started, settled =>
      if running < conc then
        if beh t then runNextAux beh conc rest running (started ++ [t]) (settled ++ [t])
        else (rest, running + 1, started ++ [t], settled)
      else (t :: rest, running, started, settled)

/-- Run the admission loop on a limiter state. -/
def runNext (beh : Nat → Bool) (s : LimiterState) : LimiterState :=
  let r := runNextAux beh s.concurrency s.queue s.running s.started s.settled
  { s with queue := r.1, running := r.2.1, started := r.2.2.1, settled := r.2.2.2 }

/-- Event add t: the task is pushed at the back of the queue and next()
runs once (source lines 22-44). -/
def limiterAdd (beh : Nat → Bool) (t : Nat) (s : LimiterState) : LimiterState :=
  runNext beh { s with queue := s.queue ++ [t], added := s.added ++ [t] }

/-- Event settle t: the finally handler of an admitted asynchronous task
releases the slot and runs next() (source lines 32-35). -/
def limiterSettle (beh : Nat → Bool) (t : Nat) (s : LimiterState) : LimiterState :=
  runNext beh { s with running := s.running - 1, settled := s.settled ++ [t] }

/-- External limiter events. -/
inductive LEvent where
  | add (t : Nat) : LEvent
  | settle (t : Nat) : LEvent
deriving DecidableEq, Repr

/-- Run a list of events, checking validity along the way: an id is added
at most once, and only an admitted, asynchronous, unsettled task can
settle.  An invalid schedule yields none. -/
def runLimiterEvents (beh : Nat → Bool) : List LEvent → LimiterState → Option LimiterState
  | [], s => some s
  | .add t :: evs, s =>
      if s.added.contains t then none
      else runLimiterEvents beh evs (limiterAdd beh t s)
  | .settle t :: evs, s =>
      if s.started.contains t && !beh t && !(s.settled.contains t) then
        runLimiterEvents beh evs (limiterSettle beh t s)
      else none

/-- The module-level limiter instance: new Limiter(10) (source line 56). -/
def limiterInit : LimiterState :=
  { concurrency := 10, running := 0, queue := [], started := [], settled := [], added := [] }

/-- Number of asynchronous (non-throwing) task ids in a list; admitted
asynchronous tasks hold limiter slots until they settle. -/
def asyncCount (beh : Nat → Bool) (l : List Nat) : Nat :=
  (l.filter (fun t => !beh t)).length

/-- Invariant of reachable limiter states: the running count is bounded by
the concurrency and equals the admitted-but-unsettled asynchronous tasks;
admissions happen in submission order (added is the admission record
followed by the still-queued tasks); no slot stays free while the queue is
non-empty; synchronously throwing tasks are settled the moment they start;
settlements are a subset of admissions; ids are never duplicated. -/
def LimiterInv (beh : Nat → Bool) (s : LimiterState) : Prop :=
  s.running ≤ s.concurrency
  ∧ s.added = s.started ++ s.queue
  ∧ s.added.Nodup
  ∧ (s.queue ≠ [] → ¬ s.running < s.concurrency)
  ∧ asyncCount beh s.started = s.running + asyncCount beh s.settled
  ∧ (∀ t ∈ s.started, beh t = true → t ∈ s.settled)
  ∧ s.settled ⊆ s.started
  ∧ s.settled.Nodup

/-! ## Recursive traversal through the shared limiter (deadlock analysis)

processPath processes a directory by submitting each child entry to the
shared module-level limiter and awaiting all of the resulting promises
(source lines 256-264).  For a filesystem that is a single chain of nested
directories, the resulting cooperative execution is deterministic; the
small-step system below follows it literally.  Task k stands for the
processPath call on the directory at nesting depth k below the top-level
target (the top-level call itself does not pass through the limiter; its
directory body submits task 1).  An admitted task k completes its stat and
readdir suspensions (the filesystem never fails here) and then submits task
k+1 through the same limiter; it can settle only after its child chain is
done.  At any moment at most one task is queued (each directory has exactly
one entry), so admission order is immaterial and a state is a status per
task plus the running counter. -/

inductive ChainTaskStatus where
  | unsubmitted : ChainTaskStatus
  | queued : ChainTaskStatus
  | running : ChainTaskStatus
  | done : ChainTaskStatus
deriving DecidableEq, Repr

/-- Status list (index k-1 holds task k) plus the limiter running count. -/
structure ChainState where
  statuses : List ChainTaskStatus
  running : Nat
deriving DecidableEq, Repr

/-- Initial state for a chain of n nested directories: the top-level call
has listed its directory and submitted task 1; nothing is admitted yet. -/
def chainInit (n : Nat) : ChainState :=
  { statuses := if n = 0 then [] else .queued :: List.replicate (n - 1) .unsubmitted,
    running := 0 }

/-- Admission step: a queued task k is admitted when running < 10; its body
runs to its next suspension, submitting task k+1 (the single child entry)
to the limiter.  Returns none when k is out of range. -/
def chainAdmit (s : ChainState) (k : Nat) : Option ChainState :=
  match s.statuses.get? k with
  | some .queued =>
      if s.running < 10 then
        some { statuses :=
                 (s.statuses.set k .running).mapIdx
                   (fun i st => if i = k + 1 && st = .unsubmitted then .queued else st),
               running := s.running + 1 }
      else none
  | _ => none

/-- Settle step: a running task k settles when its child chain is done
(its successor is done, or it is the last task and its directory has no
child directory); the finally handler releases the slot. -/
def chainSettle (s : ChainState) (k : Nat) : Option ChainState :=
  match s.statuses.get? k with
  | some .running =>
      if (match s.statuses.get? (k + 1) with
          | some st => decide (st = ChainTaskStatus.done)
          | none => true : Bool) then
        some { statuses := s.statuses.set k .done, running := s.running - 1 }
      else none
  | _ => none

/-- One scheduler step: fire the first enabled admission, else the first
enabled settlement; none when no event is enabled.  (In the chain workload
at most one admission and at most one settlement are ever enabled at once,
so this scan is the full nondeterminism.) -/
def chainStep (s : ChainState) : Option ChainState :=
  let n := s.statuses.length
  let rec tryAdmit : Nat → Option ChainState
    | 0 => none
    | m + 1 =>
        match chainAdmit s (n - (m + 1)) with
        | some s2 => some s2
        | none => tryAdmit m
  let rec trySettle : Nat → Option ChainState
    | 0 => none
    | m + 1 =>
        match chainSettle s (n - (m + 1)) with
        | some s2 => some s2
        | none => trySettle m
  match tryAdmit n with
  | some s2 => some s2
  | none => trySettle n

/-- Exhaust the enabled events (fuel-bounded iteration of chainStep). -/
def chainRun (fuel : Nat) (s : ChainState) : ChainState :=
  match fuel with
  | 0 => s
  | f + 1 =>
      match chainStep s with
      | some s2 => chainRun f s2
      | none => s

/-- The promise of the top-level processPath call resolves exactly when
task 1 settles, which in the chain is when every task is done. -/
def chainResolved (s : ChainState) : Bool :=
  s.statuses.all (fun st => st = .done)

/-! ## Helper lemmas -/

/-- Membership is preserved backwards through name-sorted insertion. -/
theorem mem_insertByName {α : Type} {x y : String × α} {l : List (String × α)}
    (h : x ∈ insertByName y l) : x = y ∨ x ∈ l := by
  induction l with
  | nil => simpa [insertByName] using h
  | cons z zs ih =>
      by_cases hlt : y.1.toList < z.1.toList
      · simp only [insertByName, if_pos hlt, List.mem_cons] at h
        rcases h with h | h | h
        · exact Or.inl h
        · exact Or.inr (by simp [h])
        · exact Or.inr (by simp [h])
      · simp only [insertByName, if_neg hlt, List.mem_cons] at h
        rcases h with h | h
        · exact Or.inr (by simp [h])
        · rcases ih h with h2 | h2
          · exact Or.inl h2
          · exact Or.inr (by simp [h2])

/-- Membership is preserved backwards through the name sort. -/
theorem mem_sortByName {α : Type} {x : String × α} {l : List (String × α)}
    (h : x ∈ sortByName l) : x ∈ l := by
  induction l with
  | nil => simp [sortByName] at h
  | cons z zs ih =>
      rcases mem_insertByName (l := sortByName zs) (by simpa [sortByName] using h) with h2 | h2
      · simp [h2]
      · exact List.mem_cons_of_mem _ (ih h2)

/-- The statistics accounting survives a merge of two branch results. -/
theorem statsInv_combineRes {a b : TraverseResult}
    (ha : a.found + a.skipped + a.uncounted = a.visited ∧ a.emitted.length = a.found)
    (hb : b.found + b.skipped + b.uncounted = b.visited ∧ b.emitted.length = b.found) :
    (combineRes a b).found + (combineRes a b).skipped + (combineRes a b).uncounted
        = (combineRes a b).visited
    ∧ (combineRes a b).emitted.length = (combineRes a b).found := by
  obtain ⟨ha1, ha2⟩ := ha
  obtain ⟨hb1, hb2⟩ := hb
  constructor
  · simp only [combineRes]
    omega
  · simp only [combineRes, List.length_append]
    omega

/-- The statistics accounting survives merging any list of branch results. -/
theorem statsInv_foldl (l : List TraverseResult) (acc : TraverseResult)
    (hacc : acc.found + acc.skipped + acc.uncounted = acc.visited ∧ acc.emitted.length = acc.found)
    (hl : ∀ r ∈ l, r.found + r.skipped + r.uncounted = r.visited ∧ r.emitted.length = r.found) :
    (l.foldl combineRes acc).found + (l.foldl combineRes acc).skipped
        + (l.foldl combineRes acc).uncounted = (l.foldl combineRes acc).visited
    ∧ (l.foldl combineRes acc).emitted.length = (l.foldl combineRes acc).found := by
  induction l generalizing acc with
  | nil => simpa using hacc
  | cons r rs ih =>
      simp only [List.foldl_cons]
      exact ih (combineRes acc r)
        (statsInv_combineRes hacc (hl r (List.mem_cons_self r rs)))
        (fun x hx => hl x (List.mem_cons_of_mem _ hx))

/-- Per-node statistics accounting of the traversal: found, skipped and
uncounted file outcomes partition the visited files, and each emission
corresponds to one found file. -/
theorem processPath_inv : ∀ (fs : FSNode) (opts : ProcessOptions) (p : String),
    (processPath opts p fs).found + (processPath opts p fs).skipped
        + (processPath opts p fs).uncounted = (processPath opts p fs).visited
    ∧ (processPath opts p fs).emitted.length = (processPath opts p fs).found := by
  intro fs
  induction fs using FSNode.rec
    (motive_2 := fun es => ∀ (opts : ProcessOptions) (dp : String),
      ∀ x ∈ processEntriesPairs opts dp es,
        x.2.found + x.2.skipped + x.2.uncounted = x.2.visited
        ∧ x.2.emitted.length = x.2.found) with
  | statErr =>
      intro opts p
      simp [processPath, zeroRes]
  | file c =>
      intro opts p
      simp only [processPath]
      split
      · simp [zeroRes]
      · split
        · simp [zeroRes]
        · split
          · simp [zeroRes]
          · split
            · simp [zeroRes]
            · split
              · simp [zeroRes]
              · cases c <;> simp [zeroRes]
  | dirErr =>
      intro opts p
      simp [processPath, zeroRes]
  | dir es ih =>
      intro opts p
      simp only [processPath]
      split
      · simp [zeroRes]
      · split
        · simp [zeroRes]
        · split
          · simp [zeroRes]
          · refine statsInv_foldl _ _ (by simp [zeroRes]) ?_
            intro r hr
            rcases List.mem_map.mp hr with ⟨x, hx, hxr⟩
            have hx2 := mem_sortByName hx
            have := ih opts p x hx2
            simpa [hxr] using this
  | nil =>
      rename_i x hx
      simp [processEntriesPairs] at hx
  | cons name node rest ihn ihr =>
      rename_i opts dp x hx
      simp only [processEntriesPairs, List.mem_cons] at hx
      rcases hx with hx | hx
      · subst hx
        exact ihn opts (joinPath dp name)
      · exact ihr opts dp x hx

/-! ## Claim theorems -/

/-- Claim C1 (code bug evidence).  The spec requires processPath to always
resolve, in particular on trees whose directory nesting depth exceeds the
shared concurrency limit of 10.  In the chain model derived from the source
(every recursive directory call passes through the module-level
Limiter(10), and a parent holds its slot while awaiting its child), a chain
of 10 nested directories runs to completion, but a chain of 11 reaches a
quiescent state in which no event is enabled (chainStep gives none), all 10
slots are held, the eleventh task is queued forever, and the top-level
promise is not resolved: the traversal deadlocks instead of resolving. -/
theorem processPath_limiter_chain_deadlock :
    chainResolved (chainRun 100 (chainInit 10)) = true
    ∧ chainResolved (chainRun 100 (chainInit 11)) = false
    ∧ chainStep (chainRun 100 (chainInit 11)) = none
    ∧ (chainRun 100 (chainInit 11)).running = 10
    ∧ (chainRun 100 (chainInit 11)).statuses.get? 10 = some .queued
    ∧ (chainRun 100 (chainInit 11)).statuses.get? 0 = some .running := by
  decide

/-- Claim C2.  For a path whose base name starts with a dot: with
include-hidden false, processPath stops with both statistics counters
untouched and nothing emitted, the result does not depend on the gitignore
matcher (the hidden check precedes the gitignore check), and a directory
node yields the all-zero result for every possible entry list, so no
descendant is visited, matched, counted, or emitted; with include-hidden
true, the path proceeds exactly to the remaining filter chain
(processPathAfterHidden, the source body from the gitignore check on). -/
theorem processPath_hidden_before_gitignore (opts : ProcessOptions) (fs : FSNode) (p : String)
    (hhidden : strStartsWith (pathBasename p) "." = true) :
    (opts.includeHidden = false →
       (processPath opts p fs).found = 0
       ∧ (processPath opts p fs).skipped = 0
       ∧ (processPath opts p fs).emitted = []
       ∧ (∀ ig, processPath { opts with mainIg := ig } p fs = processPath opts p fs)
       ∧ (∀ es, processPath opts p (.dir es) = zeroRes))
    ∧ (opts.includeHidden = true →
       processPath opts p fs = processPathAfterHidden opts p fs) := by
  constructor
  · intro h
    refine ⟨?_, ?_, ?_, ?_, ?_⟩
    · cases fs <;> simp [processPath, hhidden, h, zeroRes]
    · cases fs <;> simp [processPath, hhidden, h, zeroRes]
    · cases fs <;> simp [processPath, hhidden, h, zeroRes]
    · intro ig
      cases fs <;> simp [processPath, hhidden, h, zeroRes]
    · intro es
      simp [processPath, hhidden, h, zeroRes]
  · intro h
    cases fs <;> simp [processPath, processPathAfterHidden, hhidden, h]

/-- Witness for C2 at a concrete hidden directory with live descendants. -/
theorem processPath_hidden_before_gitignore_witness :
    strStartsWith (pathBasename "/r/.git") "." = true
    ∧ ((⟨[], false, false, [], fun _ => false, fun _ _ => false, "/r", false⟩
          : ProcessOptions).includeHidden = false →
       (processPath ⟨[], false, false, [], fun _ => false, fun _ _ => false, "/r", false⟩
           "/r/.git" (.dir (.cons "a.txt" (.file (some "A")) .nil))).found = 0
       ∧ (processPath ⟨[], false, false, [], fun _ => false, fun _ _ => false, "/r", false⟩
           "/r/.git" (.dir (.cons "a.txt" (.file (some "A")) .nil))).skipped = 0
       ∧ (processPath ⟨[], false, false, [], fun _ => false, fun _ _ => false, "/r", false⟩
           "/r/.git" (.dir (.cons "a.txt" (.file (some "A")) .nil))).emitted = []
       ∧ (∀ ig, processPath { (⟨[], false, false, [], fun _ => false, fun _ _ => false, "/r", false⟩
             : ProcessOptions) with mainIg := ig } "/r/.git"
             (.dir (.cons "a.txt" (.file (some "A")) .nil))
           = processPath ⟨[], false, false, [], fun _ => false, fun _ _ => false, "/r", false⟩
             "/r/.git" (.dir (.cons "a.txt" (.file (some "A")) .nil)))
       ∧ (∀ es, processPath ⟨[], false, false, [], fun _ => false, fun _ _ => false, "/r", false⟩
             "/r/.git" (.dir es) = zeroRes)) := by
  refine ⟨by decide, ?_⟩
  exact (processPath_hidden_before_gitignore
    ⟨[], false, false, [], fun _ => false, fun _ _ => false, "/r", false⟩
    (.dir (.cons "a.txt" (.file (some "A")) .nil)) "/r/.git" (by decide)).1

/-- Claim C9.  Hidden filtering applies to explicitly supplied top-level
inputs: whatever the other options are (extension list, patterns, matchers,
base path, binary flag), with include-hidden false a target whose base name
starts with a dot yields no emission and leaves both counters at zero, for
any node shape found at that path. -/
theorem processPath_hidden_top_level (exts pats : List String) (ifo ib : Bool)
    (ig : String → Bool) (mm : String → String → Bool) (base p : String) (fs : FSNode)
    (hhidden : strStartsWith (pathBasename p) "." = true) :
    (processPath ⟨exts, false, ifo, pats, ig, mm, base, ib⟩ p fs).found = 0
    ∧ (processPath ⟨exts, false, ifo, pats, ig, mm, base, ib⟩ p fs).skipped = 0
    ∧ (processPath ⟨exts, false, ifo, pats, ig, mm, base, ib⟩ p fs).emitted = [] := by
  cases fs <;> simp [processPath, hhidden, zeroRes]

/-- Witness for C9 at a concrete hidden top-level file. -/
theorem processPath_hidden_top_level_witness :
    strStartsWith (pathBasename "/w/.env") "." = true
    ∧ (processPath ⟨[".ts"], false, false, ["*"], fun _ => true, fun _ _ => true, "/w", true⟩
        "/w/.env" (.file (some "SECRET"))).found = 0
    ∧ (processPath ⟨[".ts"], false, false, ["*"], fun _ => true, fun _ _ => true, "/w", true⟩
        "/w/.env" (.file (some "SECRET"))).skipped = 0
    ∧ (processPath ⟨[".ts"], false, false, ["*"], fun _ => true, fun _ _ => true, "/w", true⟩
        "/w/.env" (.file (some "SECRET"))).emitted = [] := by
  refine ⟨by decide, ?_⟩
  exact processPath_hidden_top_level [".ts"] ["*"] false true (fun _ => true) (fun _ _ => true)
    "/w" "/w/.env" (.file (some "SECRET")) (by decide)

/-- Claim C7.  Statistics invariant of a run: found plus skipped never
exceeds the number of file paths visited; the shortfall is exactly the
uncounted outcomes, which the traversal definition increments only at
hidden-file exclusions, gitignore-file exclusions and file-read failures
(the pre-statistics exclusions and read errors of the claim); directory
skips touch no counter (directory branches yield the all-zero result on
every exit), only custom-pattern, binary and extension skips increment
skipped, and each found file corresponds to exactly one successfully read,
printed emission. -/
theorem processPath_statistics_invariant (opts : ProcessOptions) (p : String) (fs : FSNode) :
    (processPath opts p fs).found + (processPath opts p fs).skipped
        + (processPath opts p fs).uncounted = (processPath opts p fs).visited
    ∧ (processPath opts p fs).emitted.length = (processPath opts p fs).found
    ∧ (processPath opts p fs).found + (processPath opts p fs).skipped
        ≤ (processPath opts p fs).visited
    ∧ ((processPath opts p fs).found + (processPath opts p fs).skipped
        < (processPath opts p fs).visited ↔ (processPath opts p fs).uncounted ≠ 0) := by
  have h := processPath_inv fs opts p
  exact ⟨h.1, h.2, by omega, by omega⟩

/-- Claim C5 counterexample.  The claim says a file reaching the extension
stage survives precisely when its dot-inclusive extension string belongs to
the allow-list, compared case-sensitively on the file extension.  At the
concrete input below the extension .TXT is a member of the allow-list
[.TXT], yet the file is skipped and nothing is emitted, because the code
lowercases the extension before the case-sensitive comparison. -/
theorem extension_filter_case_counterexample :
    pathExtname "/b/A.TXT" = ".TXT"
    ∧ ".TXT" ∈ ([".TXT"] : List String)
    ∧ processPath ⟨[".TXT"], false, false, [], fun _ => false, fun _ _ => false, "/", false⟩
        "/b/A.TXT" (.file (some "hello"))
      = { found := 0, skipped := 1, visited := 1, uncounted := 0, emitted := [] } := by
  decide

/-- Claim C5 as amended.  For a readable file that reaches the
extension-filter stage (hidden, gitignore, custom-pattern and binary checks
all pass), the file survives iff the allow-list is empty or the lowercased
dot-inclusive extension is a member of the allow-list (the string
comparison is exact, but it is applied to the lowercased extension); a
surviving file is read, emitted and counted found, a failing file
increments skipped and is not emitted. -/
theorem processPath_extension_allowlist (opts : ProcessOptions) (p : String) (c : String)
    (hh : (!opts.includeHidden && strStartsWith (pathBasename p) ".") = false)
    (hig : opts.mainIg (relAdjusted opts.baseIgnorePath p) = false)
    (hpat : opts.ignorePatterns.any
        (fun pat => opts.minimatch (pathRelative opts.baseIgnorePath p) pat) = false)
    (hbin : (BINARY_FILE_EXTENSIONS.contains (strToLower (pathExtname p))
        && !opts.includeBinaryFiles) = false) :
    (opts.extensions = [] ∨ strToLower (pathExtname p) ∈ opts.extensions →
       processPath opts p (.file (some c))
         = { found := 1, skipped := 0, visited := 1, uncounted := 0, emitted := [(p, c)] })
    ∧ (opts.extensions ≠ [] → strToLower (pathExtname p) ∉ opts.extensions →
       processPath opts p (.file (some c))
         = { found := 0, skipped := 1, visited := 1, uncounted := 0, emitted := [] }) := by
  have hbin2 : strToLower (pathExtname p) ∈ BINARY_FILE_EXTENSIONS →
      opts.includeBinaryFiles = true := by
    intro hm
    rcases Bool.and_eq_false_iff.mp hbin with h1 | h1
    · exact absurd hm (by simpa using h1)
    · simpa using h1
  constructor
  · intro hsurv
    rcases hsurv with hE | hmem
    · simp [processPath, hh, hig, hpat, hbin, hE, zeroRes]
      exact hbin2
    · have hany : opts.extensions.any (fun ext => strToLower (pathExtname p) = ext) = true := by
        simp only [List.any_eq_true, decide_eq_true_eq]
        exact ⟨_, hmem, rfl⟩
      simp [processPath, hh, hig, hpat, hbin, hany, zeroRes]
      exact hbin2
  · intro hE hmem
    have hany : opts.extensions.any (fun ext => strToLower (pathExtname p) = ext) = false := by
      rw [List.any_eq_false]
      intro x hx
      simp only [decide_eq_true_eq]
      intro hEq
      exact hmem (hEq ▸ hx)
    have hne : opts.extensions.isEmpty = false := by
      cases hl : opts.extensions with
      | nil => exact absurd hl hE
      | cons a as => simp
    simp [processPath, hh, hig, hpat, hbin, hany, hne, zeroRes]

/-- Witness for the amended C5 at concrete surviving and skipped files. -/
theorem processPath_extension_allowlist_witness :
    (([".ts"] : List String) = [] ∨ strToLower (pathExtname "/r/a.ts") ∈ ([".ts"] : List String))
    ∧ processPath ⟨[".ts"], false, false, [], fun _ => false, fun _ _ => false, "/r", false⟩
        "/r/a.ts" (.file (some "T"))
      = { found := 1, skipped := 0, visited := 1, uncounted := 0, emitted := [("/r/a.ts", "T")] } := by
  refine ⟨Or.inr (by decide), ?_⟩
  exact (processPath_extension_allowlist
      ⟨[".ts"], false, false, [], fun _ => false, fun _ _ => false, "/r", false⟩
      "/r/a.ts" "T" (by decide) (by decide) (by decide) (by decide)).1
    (Or.inr (by decide))

/-- Claim C10.  A file whose extracted dot-inclusive extension is empty is
never classified as binary by the denylist, and when it reaches the filter
stage with a non-empty allow-list that does not contain the empty string it
is counted skipped and never emitted, whatever its content (readable or
not - the skip precedes the read). -/
theorem processPath_no_extension_skipped (opts : ProcessOptions) (p : String) (c : Option String)
    (hext : pathExtname p = "")
    (hh : (!opts.includeHidden && strStartsWith (pathBasename p) ".") = false)
    (hig : opts.mainIg (relAdjusted opts.baseIgnorePath p) = false)
    (hpat : opts.ignorePatterns.any
        (fun pat => opts.minimatch (pathRelative opts.baseIgnorePath p) pat) = false)
    (hE : opts.extensions ≠ []) (hmem : "" ∉ opts.extensions) :
    BINARY_FILE_EXTENSIONS.contains (strToLower (pathExtname p)) = false
    ∧ processPath opts p (.file c)
      = { found := 0, skipped := 1, visited := 1, uncounted := 0, emitted := [] } := by
  have hlow : strToLower (pathExtname p) = "" := by
    rw [hext]
    decide
  have hbinF : BINARY_FILE_EXTENSIONS.contains (strToLower (pathExtname p)) = false := by
    rw [hlow]
    decide
  refine ⟨hbinF, ?_⟩
  have hany : opts.extensions.any (fun ext => strToLower (pathExtname p) = ext) = false := by
    rw [List.any_eq_false]
    intro x hx
    simp only [decide_eq_true_eq]
    intro hEq
    rw [hlow] at hEq
    exact hmem (hEq ▸ hx)
  have hne : opts.extensions.isEmpty = false := by
    cases hl : opts.extensions with
    | nil => exact absurd hl hE
    | cons a as => simp
  simp [processPath, hh, hig, hpat, hbinF, hany, hne, zeroRes]

/-- Witness for C10 at a concrete extensionless file. -/
theorem processPath_no_extension_skipped_witness :
    pathExtname "/r/Makefile" = ""
    ∧ BINARY_FILE_EXTENSIONS.contains (strToLower (pathExtname "/r/Makefile")) = false
    ∧ processPath ⟨[".ts"], false, false, [], fun _ => false, fun _ _ => false, "/r", false⟩
        "/r/Makefile" (.file (some "all:"))
      = { found := 0, skipped := 1, visited := 1, uncounted := 0, emitted := [] } := by
  refine ⟨by decide, ?_⟩
  exact processPath_no_extension_skipped
    ⟨[".ts"], false, false, [], fun _ => false, fun _ _ => false, "/r", false⟩
    "/r/Makefile" (some "all:") (by decide) (by decide) (by decide) (by decide)
    (by decide) (by decide)

/-- Claim C8.  The wrapped ignores function is a total boolean function
(the formal shape of never throws); any internal matching error of the
underlying library matcher is suppressed into the answer false; and with
the gitignore file absent, or empty after trimming and discarding blanks
and hash comments, the loaded matcher ignores nothing (the empty library
instance is modelled from the spec as ignoring nothing). -/
theorem ignore_matcher_total_and_empty (mk : List String → String → Except String Bool)
    (raw : String → Except String Bool) (p q r msg c : String)
    (herr : raw p = .error msg)
    (hempty : parseGitignore c = []) :
    wrapIgnores raw p = false
    ∧ loadIgnoreMatcher mk (some c) q = false
    ∧ loadIgnoreMatcher mk none r = false := by
  refine ⟨?_, ?_, ?_⟩
  · simp [wrapIgnores, herr]
  · simp [loadIgnoreMatcher, hempty, wrapIgnores, emptyIgnoreRaw]
  · simp [loadIgnoreMatcher, wrapIgnores, emptyIgnoreRaw]

/-- Witness for C8: a throwing raw matcher and a gitignore text holding
only comments and blank lines. -/
theorem ignore_matcher_total_and_empty_witness :
    (fun _ : String => (Except.error "boom" : Except String Bool)) "x" = .error "boom"
    ∧ parseGitignore "# comment\n\n   \n# more" = []
    ∧ wrapIgnores (fun _ => .error "boom") "x" = false
    ∧ loadIgnoreMatcher (fun _ _ => .ok true) (some "# comment\n\n   \n# more") "src/a.ts" = false
    ∧ loadIgnoreMatcher (fun _ _ => .ok true) none "src/a.ts" = false := by
  refine ⟨rfl, by decide, ?_⟩
  have h := ignore_matcher_total_and_empty (fun _ _ => .ok true)
    (fun _ => (Except.error "boom" : Except String Bool)) "x" "src/a.ts" "src/a.ts"
    "boom" "# comment\n\n   \n# more" rfl (by decide)
  exact h

/-! ## Lemmas about the path split and join -/

/-- The splitter always yields at least one chunk. -/
theorem splitSlashAux_ne_nil (cs : List Char) : ∀ acc, splitSlashAux cs acc ≠ [] := by
  induction cs with
  | nil => intro acc; simp [splitSlashAux]
  | cons c cs ih =>
      intro acc
      by_cases hc : c = '/'
      · simp [splitSlashAux, hc]
      · simp only [splitSlashAux, if_neg hc]
        exact ih _

/-- Unfolding of the join at a cons with a non-empty tail. -/
theorem joinSlashCL_cons (x : List Char) (xs : List (List Char)) (h : xs ≠ []) :
    joinSlashCL (x :: xs) = x ++ '/' :: joinSlashCL xs := by
  cases xs with
  | nil => exact absurd rfl h
  | cons y ys => rfl

/-- Joining the chunks of a split restores the characters. -/
theorem joinSlashCL_splitSlashAux (cs : List Char) :
    ∀ acc, joinSlashCL (splitSlashAux cs acc) = acc.reverse ++ cs := by
  induction cs with
  | nil => intro acc; simp [splitSlashAux, joinSlashCL]
  | cons c cs ih =>
      intro acc
      by_cases hc : c = '/'
      · subst hc
        rw [show splitSlashAux ('/' :: cs) acc = acc.reverse :: splitSlashAux cs [] from by
          simp [splitSlashAux]]
        rw [joinSlashCL_cons _ _ (splitSlashAux_ne_nil _ _), ih []]
        simp
      · simp only [splitSlashAux, if_neg hc]
        rw [ih (c :: acc)]
        simp

/-- Split and join are inverse on strings. -/
theorem joinSlash_splitSlash (s : String) : joinSlash (splitSlash s) = s := by
  unfold joinSlash splitSlash
  rw [List.map_map]
  have h1 : (String.toList ∘ String.mk) = id := funext fun l => rfl
  rw [h1, List.map_id, joinSlashCL_splitSlashAux]
  cases s with
  | mk data => rfl

/-- A leading empty segment is dropped by the normalisation pass. -/
theorem normSegs_nil_cons (l : List String) : normSegs ("" :: l) = normSegs l := by
  simp [normSegs, List.foldl_cons, normStep]

/-- The normalisation fold is the identity on lists of plain segments. -/
theorem foldl_normStep_good (l : List String) :
    ∀ acc, (∀ s ∈ l, s ≠ "" ∧ s ≠ "." ∧ s ≠ "..") → l.foldl normStep acc = acc ++ l := by
  induction l with
  | nil => intro acc _; simp
  | cons s rest ih =>
      intro acc h
      have hs := h s (by simp)
      simp only [List.foldl_cons]
      rw [show normStep acc s = acc ++ [s] by simp [normStep, hs.1, hs.2.1, hs.2.2]]
      rw [ih _ (fun x hx => h x (by simp [hx]))]
      simp

/-- Shared step: a path whose split is the root marker followed by non-empty
segments equals the separator followed by the join of those segments. -/
theorem slash_join_eq (p : String) (segs : List String)
    (hps : joinSlash ("" :: segs) = p) (hne : segs ≠ []) :
    "/" ++ joinSlash segs = p := by
  cases segs with
  | nil => exact absurd rfl hne
  | cons a as =>
      rw [← hps]
      show "/" ++ String.mk (joinSlashCL ((a :: as).map String.toList))
        = joinSlash ("" :: a :: as)
      unfold joinSlash
      rw [List.map_cons (f := String.toList) (a := "")]
      rw [joinSlashCL_cons _ _ (by simp)]
      rfl

/-- On an already-normal absolute path, path.resolve is the identity. -/
theorem normalizeAbs_normal (p : String) (h : isNormalAbsPath p = true) :
    normalizeAbs p = p := by
  rw [isNormalAbsPath, Bool.and_eq_true] at h
  obtain ⟨hstart, hmatch⟩ := h
  cases hsp : splitSlash p with
  | nil => rw [hsp] at hmatch; simp at hmatch
  | cons s0 segs =>
      rw [hsp, Bool.and_eq_true] at hmatch
      obtain ⟨hs0, hrest⟩ := hmatch
      have hs0' : s0 = "" := by simpa using hs0
      subst hs0'
      have hps := joinSlash_splitSlash p
      rw [hsp] at hps
      rw [Bool.or_eq_true] at hrest
      rcases hrest with hroot | hgood
      · have hsegs : segs = [""] := by simpa using hroot
        subst hsegs
        have hp : p = "/" := by rw [← hps]; rfl
        rw [hp]
        decide
      · have hsegs : ∀ s ∈ segs, s ≠ "" ∧ s ≠ "." ∧ s ≠ ".." := by
          intro s hs
          have h3 := List.all_eq_true.mp hgood s hs
          simp at h3
          exact ⟨h3.1.1, h3.1.2, h3.2⟩
        have hne : segs ≠ [] := by
          rintro rfl
          have hp : p = "" := by rw [← hps]; rfl
          rw [hp] at hstart
          exact absurd hstart (by decide)
        rw [normalizeAbs, hsp, normSegs_nil_cons]
        rw [show normSegs segs = segs from by
          rw [normSegs]; rw [foldl_normStep_good segs [] hsegs]; simp]
        exact slash_join_eq p segs hps hne

/-- On an already-normal absolute path, resolution against any working
directory is the identity. -/
theorem resolvePath_normal (cwd p : String) (h : isNormalAbsPath p = true) :
    resolvePath cwd p = p := by
  have hstart : strStartsWith p "/" = true := by
    rw [isNormalAbsPath, Bool.and_eq_true] at h
    exact h.1
  rw [resolvePath, if_pos hstart]
  exact normalizeAbs_normal p h

/-- Rebuilding from the split of a normal absolute path restores the path. -/
theorem rebuildAncestor_split (p : String) (h : isNormalAbsPath p = true) :
    rebuildAncestor (splitSlash p) = p := by
  rw [isNormalAbsPath, Bool.and_eq_true] at h
  obtain ⟨hstart, hmatch⟩ := h
  cases hsp : splitSlash p with
  | nil => rw [hsp] at hmatch; simp at hmatch
  | cons s0 segs =>
      rw [hsp, Bool.and_eq_true] at hmatch
      obtain ⟨hs0, hrest⟩ := hmatch
      have hs0' : s0 = "" := by simpa using hs0
      subst hs0'
      have hps := joinSlash_splitSlash p
      rw [hsp] at hps
      rw [Bool.or_eq_true] at hrest
      rcases hrest with hroot | hgood
      · have hsegs : segs = [""] := by simpa using hroot
        subst hsegs
        have hp : p = "/" := by rw [← hps]; rfl
        rw [hp]
        decide
      · have hne : segs ≠ [] := by
          rintro rfl
          have hp : p = "" := by rw [← hps]; rfl
          rw [hp] at hstart
          exact absurd hstart (by decide)
        cases segs with
        | nil => exact absurd rfl hne
        | cons a as =>
            have hstep : rebuildAncestor ("" :: a :: as) = "/" ++ joinSlash (a :: as) := rfl
            rw [hstep]
            exact slash_join_eq p (a :: as) hps hne

/-- The segment scan applied to two copies of one list keeps the list. -/
theorem takeCommon_self (l : List String) :
    ∀ (i : Nat) (rest : List String), rest = l.drop i → takeCommon [l, l] i rest = rest := by
  intro i rest
  induction rest generalizing i with
  | nil => intro _; simp [takeCommon]
  | cons c rest2 ih =>
      intro hdrop
      have hget : l.get? i = some c := by
        have h0 : (l.drop i).get? 0 = some c := by rw [← hdrop]; rfl
        simpa [List.get?_eq_getElem?, List.getElem?_drop] using h0
      have hlt : i < l.length := by
        by_contra hle
        push_neg at hle
        have hnil : l.drop i = [] := List.drop_eq_nil_of_le hle
        rw [hnil] at hdrop
        exact absurd hdrop (by simp)
      have hdrop2 : rest2 = l.drop (i + 1) := by
        have := List.drop_drop 1 i l
        rw [← this, ← hdrop]
        rfl
      rw [takeCommon]
      have hgi : l[i] = c := by
        have h2 : l[i]? = some c := by simpa [List.get?_eq_getElem?] using hget
        simpa [List.getElem?_eq_getElem hlt] using h2
      have hcond : ([l, l] : List (List String)).all
          (fun q => decide (i < q.length) && decide (q.get? i = some c)) = true := by
        simp [hlt, hget, hgi]
      rw [if_pos (by exact_mod_cast hcond)]
      rw [ih (i + 1) hdrop2]

/-- Claim C4 counterexample.  The claim asserts idempotence under input
duplication for every path.  For the concrete file path below (the model
filesystem stats it as a non-directory), the single-input branch answers
the parent directory while the duplicated input takes the multi-input
common-segment branch and answers the path itself, so the two results
differ. -/
theorem findCommonAncestor_idempotence_counterexample :
    findCommonAncestor (fun q => if q = "/a/b.txt" then some false else some true) "/"
        ["/a/b.txt"] = "/a"
    ∧ findCommonAncestor (fun q => if q = "/a/b.txt" then some false else some true) "/"
        ["/a/b.txt", "/a/b.txt"] = "/a/b.txt"
    ∧ findCommonAncestor (fun q => if q = "/a/b.txt" then some false else some true) "/"
          ["/a/b.txt"]
      ≠ findCommonAncestor (fun q => if q = "/a/b.txt" then some false else some true) "/"
          ["/a/b.txt", "/a/b.txt"] := by
  decide

/-- Claim C4 as amended.  Idempotence under duplication holds for directory
paths: for a normal absolute path that stats as a directory, both the
single-input call and the duplicated-input call return the path itself (in
particular, findCommonAncestor of two identical directories is that
directory).  For a non-directory path p the two calls differ in general:
the single-input call answers dirname p while the duplicated call answers
p, as the counterexample shows. -/
theorem findCommonAncestor_directory_idempotent (isDir : String → Option Bool)
    (cwd p : String)
    (hnorm : isNormalAbsPath p = true)
    (hdir : isDir p = some true) :
    findCommonAncestor isDir cwd [p] = p
    ∧ findCommonAncestor isDir cwd [p, p] = p := by
  have hres : resolvePath cwd p = p := resolvePath_normal cwd p hnorm
  constructor
  · rw [findCommonAncestor]
    simp only [hres, hdir]
  · rw [findCommonAncestor]
    · simp only [List.map_cons, List.map_nil, hres, List.headD]
      rw [takeCommon_self (splitSlash p) 0 (splitSlash p) rfl]
      exact rebuildAncestor_split p hnorm
    · simp
    · simp

/-- Witness for the amended C4 at a concrete directory path. -/
theorem findCommonAncestor_directory_idempotent_witness :
    isNormalAbsPath "/a/b" = true
    ∧ (fun _ : String => (some true : Option Bool)) "/a/b" = some true
    ∧ findCommonAncestor (fun _ => some true) "/w" ["/a/b"] = "/a/b"
    ∧ findCommonAncestor (fun _ => some true) "/w" ["/a/b", "/a/b"] = "/a/b" := by
  refine ⟨by decide, rfl, ?_⟩
  exact findCommonAncestor_directory_idempotent (fun _ => some true) "/w" "/a/b"
    (by decide) rfl

/-! ## Tree builder lemmas -/

/-- Pruning the stat-failing entries does not change what the tree walk
collects (a caught stat failure contributes nothing), nor whether it
fails. -/
theorem treeCollect_prune : ∀ (node : FSNode) (opts : FileTreeOptions) (p : String),
    treeCollect opts p (pruneStatErr node) = treeCollect opts p node := by
  intro node
  induction node using FSNode.rec
    (motive_2 := fun es => ∀ (opts : FileTreeOptions) (dp : String),
      treeCollectEntries opts dp (pruneStatErrEntries es) = treeCollectEntries opts dp es) with
  | statErr => intro opts p; rfl
  | file c => intro opts p; rfl
  | dirErr => intro opts p; rfl
  | dir es ih =>
      intro opts p
      simp only [pruneStatErr, treeCollect]
      rw [ih opts p]
  | nil => rfl
  | cons name node rest ihn ihr =>
      rename_i opts dp
      cases node with
      | statErr =>
          simp only [pruneStatErrEntries]
          rw [ihr opts dp]
          cases h : treeCollectEntries opts dp rest with
          | ok l => simp [treeCollectEntries, treeCollect, h, Bind.bind, Except.bind]
          | error e => simp [treeCollectEntries, treeCollect, h, Bind.bind, Except.bind]
      | file c =>
          simp only [pruneStatErrEntries, treeCollectEntries]
          rw [ihr opts dp, ihn opts (joinPath dp name)]
      | dirErr =>
          simp only [pruneStatErrEntries, treeCollectEntries]
          rw [ihr opts dp, ihn opts (joinPath dp name)]
      | dir es2 =>
          simp only [pruneStatErrEntries, treeCollectEntries]
          rw [ihr opts dp, ihn opts (joinPath dp name)]

/-- Root-level version of the pruning invariance. -/
theorem treeCollectRoots_prune (opts : FileTreeOptions) :
    ∀ roots, treeCollectRoots opts (pruneStatErrRoots roots) = treeCollectRoots opts roots := by
  intro roots
  induction roots with
  | nil => rfl
  | cons r rest ih =>
      obtain ⟨p, node⟩ := r
      cases node with
      | statErr =>
          simp only [pruneStatErrRoots]
          rw [ih]
          cases h : treeCollectRoots opts rest with
          | ok l => simp [treeCollectRoots, treeCollect, h, Bind.bind, Except.bind]
          | error e => simp [treeCollectRoots, treeCollect, h, Bind.bind, Except.bind]
      | file c =>
          simp only [pruneStatErrRoots, treeCollectRoots]
          rw [ih, treeCollect_prune]
      | dirErr =>
          simp only [pruneStatErrRoots, treeCollectRoots]
          rw [ih, treeCollect_prune]
      | dir es =>
          simp only [pruneStatErrRoots, treeCollectRoots]
          rw [ih, treeCollect_prune]

/-- When no directory in the tree fails its listing, the walk succeeds. -/
theorem treeCollect_ok : ∀ (node : FSNode) (opts : FileTreeOptions) (p : String),
    noDirErr node = true → ∃ l, treeCollect opts p node = Except.ok l := by
  intro node
  induction node using FSNode.rec
    (motive_2 := fun es => ∀ (opts : FileTreeOptions) (dp : String),
      noDirErrEntries es = true → ∃ l, treeCollectEntries opts dp es = Except.ok l) with
  | statErr => intro opts p _; exact ⟨[], rfl⟩
  | file c =>
      intro opts p _
      simp only [treeCollect]
      split
      · exact ⟨[], rfl⟩
      · split
        · exact ⟨[], rfl⟩
        · split
          · exact ⟨[], rfl⟩
          · split
            · exact ⟨[p], rfl⟩
            · exact ⟨[], rfl⟩
  | dirErr => intro opts p h; simp [noDirErr] at h
  | dir es ih =>
      intro opts p h
      simp only [treeCollect]
      split
      · exact ⟨[], rfl⟩
      · split
        · exact ⟨[], rfl⟩
        · split
          · exact ⟨[], rfl⟩
          · exact ih opts p (by simpa [noDirErr] using h)
  | nil => exact ⟨[], rfl⟩
  | cons name node rest ihn ihr =>
      rename_i opts dp h
      rw [noDirErrEntries, Bool.and_eq_true] at h
      obtain ⟨l1, hl1⟩ := ihn opts (joinPath dp name) h.1
      obtain ⟨l2, hl2⟩ := ihr opts dp h.2
      exact ⟨l1 ++ l2, by simp [treeCollectEntries, hl1, hl2, Bind.bind, Except.bind]⟩

/-- Root-level success when no listed directory fails. -/
theorem treeCollectRoots_ok (opts : FileTreeOptions) :
    ∀ roots, (roots.all fun r => noDirErr r.2) = true →
      ∃ l, treeCollectRoots opts roots = Except.ok l := by
  intro roots
  induction roots with
  | nil => intro _; exact ⟨[], rfl⟩
  | cons r rest ih =>
      intro h
      rw [List.all_cons, Bool.and_eq_true] at h
      obtain ⟨l1, hl1⟩ := treeCollect_ok r.2 opts r.1 h.1
      obtain ⟨l2, hl2⟩ := ih h.2
      refine ⟨l1 ++ l2, ?_⟩
      obtain ⟨p, node⟩ := r
      simp [treeCollectRoots, hl1, hl2, Bind.bind, Except.bind]

/-- Claim C6 as amended.  A stat failure on an individual visited entry is
swallowed: the tree is the same as if the stat-failing entries (and their
subtrees) were removed, and whenever no visited directory fails its
listing, generateFileTree resolves with a rendered tree.  However a
directory-listing (readdir) failure is not caught and rejects the whole
call, as the counterexample shows. -/
theorem generateFileTree_stat_error_swallowed (opts : FileTreeOptions)
    (roots : List (String × FSNode)) :
    generateFileTreeModel opts roots = generateFileTreeModel opts (pruneStatErrRoots roots)
    ∧ ((roots.all fun r => noDirErr r.2) = true →
        ∃ t, generateFileTreeModel opts roots = Except.ok t) := by
  constructor
  · unfold generateFileTreeModel
    rw [treeCollectRoots_prune]
  · intro h
    obtain ⟨l, hl⟩ := treeCollectRoots_ok opts roots h
    exact ⟨_, by unfold generateFileTreeModel; rw [hl]; rfl⟩

/-- Witness for the amended C6: a listing with one stat-failing entry and
one live file; the rendered tree equals the tree of the pruned listing and
the call resolves. -/
theorem generateFileTree_stat_error_swallowed_witness :
    (([("/r", FSNode.dir (.cons "gone" .statErr (.cons "a.txt" (.file (some "A")) .nil)))]
        : List (String × FSNode)).all fun r => noDirErr r.2) = true
    ∧ generateFileTreeModel ⟨"/r", fun _ => false, false, false, [], false, fun _ _ => false⟩
        [("/r", FSNode.dir (.cons "gone" .statErr (.cons "a.txt" (.file (some "A")) .nil)))]
      = generateFileTreeModel ⟨"/r", fun _ => false, false, false, [], false, fun _ _ => false⟩
        (pruneStatErrRoots
          [("/r", FSNode.dir (.cons "gone" .statErr (.cons "a.txt" (.file (some "A")) .nil)))])
    ∧ ∃ t, generateFileTreeModel ⟨"/r", fun _ => false, false, false, [], false, fun _ _ => false⟩
        [("/r", FSNode.dir (.cons "gone" .statErr (.cons "a.txt" (.file (some "A")) .nil)))]
      = Except.ok t := by
  refine ⟨by decide, ?_⟩
  exact generateFileTree_stat_error_swallowed
    ⟨"/r", fun _ => false, false, false, [], false, fun _ _ => false⟩
    [("/r", FSNode.dir (.cons "gone" .statErr (.cons "a.txt" (.file (some "A")) .nil)))]
    |>.imp id (fun f => f (by decide))

/-- Claim C6 counterexample.  A per-entry filesystem read error does reject
the whole call: a directory whose listing fails (readdir rejection) makes
generateFileTree reject instead of excluding the entry, refuting the claim
that any stat or read error on an individual entry is swallowed. -/
theorem generateFileTree_listing_error_counterexample :
    (generateFileTreeModel ⟨"/r", fun _ => false, false, false, [], false, fun _ _ => false⟩
        [("/r", FSNode.dir (.cons "sub" .dirErr (.cons "a.txt" (.file (some "A")) .nil)))]).isOk
      = false := by
  decide

/-! ## Limiter lemmas -/

/-- Appending a synchronously throwing task id leaves the async count. -/
theorem asyncCount_append_sync (beh : Nat → Bool) (l : List Nat) (t : Nat)
    (h : beh t = true) : asyncCount beh (l ++ [t]) = asyncCount beh l := by
  simp [asyncCount, List.filter_append, h]

/-- Appending an asynchronous task id raises the async count by one. -/
theorem asyncCount_append_async (beh : Nat → Bool) (l : List Nat) (t : Nat)
    (h : beh t = false) : asyncCount beh (l ++ [t]) = asyncCount beh l + 1 := by
  simp [asyncCount, List.filter_append, h]

/-- A nodup sublist-by-inclusion cannot have a larger async count. -/
theorem asyncCount_le_of_subset (beh : Nat → Bool) {l1 l2 : List Nat}
    (hd : l1.Nodup) (hs : l1 ⊆ l2) : asyncCount beh l1 ≤ asyncCount beh l2 := by
  have hsub : l1.filter (fun t => !beh t) ⊆ l2.filter (fun t => !beh t) := by
    intro x hx
    rw [List.mem_filter] at hx ⊢
    exact ⟨hs hx.1, hx.2⟩
  exact ((hd.filter _).subperm hsub).length_le

/-- Specification of the admission cascade: the running bound, the
preservation of the combined admission-then-queue order, slot filling (no
free slot remains while tasks queue, given that the cascade starts from a
reachable configuration), the async-count accounting, immediate settlement
of throwing tasks, and settlement bookkeeping. -/
theorem runNextAux_spec (beh : Nat → Bool) (conc : Nat) :
    ∀ (q : List Nat) (run : Nat) (st se : List Nat),
      run ≤ conc →
      (q.length ≤ 1 ∨ conc ≤ run + 1) →
      asyncCount beh st = run + asyncCount beh se →
      (∀ t ∈ st, beh t = true → t ∈ se) →
      se ⊆ st →
      se.Nodup →
      (st ++ q).Nodup →
      (runNextAux beh conc q run st se).2.1 ≤ conc
      ∧ (runNextAux beh conc q run st se).2.2.1 ++ (runNextAux beh conc q run st se).1 = st ++ q
      ∧ ((runNextAux beh conc q run st se).1 ≠ [] →
          ¬ (runNextAux beh conc q run st se).2.1 < conc)
      ∧ asyncCount beh (runNextAux beh conc q run st se).2.2.1
          = (runNextAux beh conc q run st se).2.1
            + asyncCount beh (runNextAux beh conc q run st se).2.2.2
      ∧ (∀ t ∈ (runNextAux beh conc q run st se).2.2.1,
          beh t = true → t ∈ (runNextAux beh conc q run st se).2.2.2)
      ∧ (runNextAux beh conc q run st se).2.2.2 ⊆ (runNextAux beh conc q run st se).2.2.1
      ∧ (runNextAux beh conc q run st se).2.2.2.Nodup := by
  intro q
  induction q with
  | nil =>
      intro run st se h1 _ h3 h4 h5 h6 _
      simp only [runNextAux]
      exact ⟨h1, by simp, by simp, h3, h4, h5, h6⟩
  | cons t rest ih =>
      intro run st se h1 h2 h3 h4 h5 h6 h7
      have htst : t ∉ st := by
        rw [List.nodup_append] at h7
        exact fun hmem => h7.2.2 hmem (by simp)
      by_cases hrun : run < conc
      · by_cases hbeh : beh t = true
        · -- synchronous throw: slot taken and released inside the cascade
          simp only [runNextAux, if_pos hrun, if_pos hbeh]
          have hres := ih run (st ++ [t]) (se ++ [t]) h1
            (by rcases h2 with h2 | h2
                · left
                  simp only [List.length_cons] at h2
                  omega
                · right
                  exact h2)
            (by rw [asyncCount_append_sync beh st t hbeh,
                    asyncCount_append_sync beh se t hbeh]; exact h3)
            (by intro x hx hbx
                rcases List.mem_append.mp hx with hx | hx
                · exact List.mem_append_left _ (h4 x hx hbx)
                · simp at hx
                  subst hx
                  simp)
            (by intro x hx
                rcases List.mem_append.mp hx with hx | hx
                · exact List.mem_append_left _ (h5 hx)
                · simp at hx
                  subst hx
                  simp)
            (by rw [List.nodup_append]
                refine ⟨h6, by simp, ?_⟩
                intro x hx
                simp only [List.mem_singleton]
                rintro rfl
                exact htst (h5 hx))
            (by rw [List.append_assoc]
                simpa using h7)
          refine ⟨hres.1, ?_, hres.2.2.1, hres.2.2.2.1, hres.2.2.2.2.1,
            hres.2.2.2.2.2.1, hres.2.2.2.2.2.2⟩
          rw [hres.2.1, List.append_assoc]
          simp
        · -- asynchronous admission: the slot stays taken
          have hbf : beh t = false := by rwa [Bool.not_eq_true] at hbeh
          simp only [runNextAux, if_pos hrun, if_neg hbeh]
          refine ⟨by omega, by simp, ?_, ?_, ?_, ?_, h6⟩
          · intro hne
            rcases h2 with h2 | h2
            · exfalso
              apply hne
              simp only [List.length_cons] at h2
              exact List.length_eq_zero.mp (by omega)
            · omega
          · rw [asyncCount_append_async beh st t hbf]
            omega
          · intro x hx hbx
            rcases List.mem_append.mp hx with hx | hx
            · exact h4 x hx hbx
            · simp at hx
              subst hx
              rw [hbf] at hbx
              exact absurd hbx (by simp)
          · intro x hx
            exact List.mem_append_left _ (h5 hx)
      · -- no free slot: the queue is untouched
        simp only [runNextAux, if_neg hrun]
        exact ⟨h1, by simp, fun _ => hrun, h3, h4, h5, h6⟩

/-- The add event preserves the limiter invariant when the id is fresh. -/
theorem limiterAdd_inv (beh : Nat → Bool) (t : Nat) (s : LimiterState)
    (h : LimiterInv beh s) (ht : t ∉ s.added) : LimiterInv beh (limiterAdd beh t s) := by
  obtain ⟨h1, h2, h3, h4, h5, h6, h7, h8⟩ := h
  have hpre : (s.queue ++ [t]).length ≤ 1 ∨ s.concurrency ≤ s.running + 1 := by
    cases hq : s.queue with
    | nil => left; simp
    | cons a as =>
        right
        have := h4 (by simp [hq])
        omega
  have hnodup : (s.started ++ (s.queue ++ [t])).Nodup := by
    rw [← List.append_assoc, ← h2, List.nodup_append]
    refine ⟨h3, List.nodup_singleton t, ?_⟩
    intro x hx
    simp only [List.mem_singleton]
    rintro rfl
    exact ht hx
  have hspec := runNextAux_spec beh s.concurrency (s.queue ++ [t]) s.running s.started s.settled
    h1 hpre h5 h6 h7 h8 hnodup
  simp only [LimiterInv, limiterAdd, runNext]
  refine ⟨hspec.1, ?_, ?_, hspec.2.2.1, hspec.2.2.2.1, hspec.2.2.2.2.1,
    hspec.2.2.2.2.2.1, hspec.2.2.2.2.2.2⟩
  · rw [hspec.2.1, ← List.append_assoc, ← h2]
  · rw [← List.append_assoc, ← h2] at hnodup
    exact hnodup

/-- The settle event preserves the limiter invariant for a valid target:
an admitted asynchronous task that has not settled yet. -/
theorem limiterSettle_inv (beh : Nat → Bool) (t : Nat) (s : LimiterState)
    (h : LimiterInv beh s) (hts : t ∈ s.started) (hbf : beh t = false)
    (htn : t ∉ s.settled) : LimiterInv beh (limiterSettle beh t s) := by
  obtain ⟨h1, h2, h3, h4, h5, h6, h7, h8⟩ := h
  have hstNodup : s.started.Nodup := by
    rw [h2, List.nodup_append] at h3
    exact h3.1
  have hseNodup : (s.settled ++ [t]).Nodup := by
    rw [List.nodup_append]
    refine ⟨h8, List.nodup_singleton t, ?_⟩
    intro x hx
    simp only [List.mem_singleton]
    rintro rfl
    exact htn hx
  have hseSub : s.settled ++ [t] ⊆ s.started := by
    intro x hx
    rcases List.mem_append.mp hx with hx | hx
    · exact h7 hx
    · simp at hx
      subst hx
      exact hts
  have hrun1 : 1 ≤ s.running := by
    have hle := asyncCount_le_of_subset beh hseNodup hseSub
    rw [asyncCount_append_async beh s.settled t hbf] at hle
    omega
  have hpre : s.queue.length ≤ 1 ∨ s.concurrency ≤ (s.running - 1) + 1 := by
    cases hq : s.queue with
    | nil => left; simp
    | cons a as =>
        right
        have := h4 (by simp [hq])
        omega
  have hcount : asyncCount beh s.started = (s.running - 1) + asyncCount beh (s.settled ++ [t]) := by
    rw [asyncCount_append_async beh s.settled t hbf]
    omega
  have hmemb : ∀ x ∈ s.started, beh x = true → x ∈ s.settled ++ [t] := by
    intro x hx hbx
    exact List.mem_append_left _ (h6 x hx hbx)
  have hnodup : (s.started ++ s.queue).Nodup := by
    rw [← h2]
    exact h3
  have hspec := runNextAux_spec beh s.concurrency s.queue (s.running - 1) s.started
    (s.settled ++ [t]) (by omega) hpre hcount hmemb hseSub hseNodup hnodup
  simp only [LimiterInv, limiterSettle, runNext]
  refine ⟨hspec.1, ?_, h3, hspec.2.2.1, hspec.2.2.2.1, hspec.2.2.2.2.1,
    hspec.2.2.2.2.2.1, hspec.2.2.2.2.2.2⟩
  · rw [hspec.2.1, ← h2]

/-- Reachability: running a valid event list from a state satisfying the
invariant lands in a state satisfying the invariant. -/
theorem runLimiterEvents_inv (beh : Nat → Bool) :
    ∀ (evs : List LEvent) (s s' : LimiterState),
      LimiterInv beh s → runLimiterEvents beh evs s = some s' → LimiterInv beh s' := by
  intro evs
  induction evs with
  | nil =>
      intro s s' h hrun
      simp only [runLimiterEvents, Option.some.injEq] at hrun
      exact hrun ▸ h
  | cons ev rest ih =>
      intro s s' h hrun
      cases ev with
      | add t =>
          simp only [runLimiterEvents] at hrun
          split at hrun
          · exact absurd hrun (by simp)
          · rename_i hcon
            exact ih _ _ (limiterAdd_inv beh t s h (by simpa using hcon)) hrun
      | settle t =>
          simp only [runLimiterEvents] at hrun
          split at hrun
          · rename_i hcon
            rw [Bool.and_eq_true, Bool.and_eq_true] at hcon
            obtain ⟨⟨hc1, hc2⟩, hc3⟩ := hcon
            exact ih _ _ (limiterSettle_inv beh t s h
              (by simpa using hc1)
              (by simpa using hc2)
              (by simpa using hc3)) hrun
          · exact absurd hrun (by simp)

/-- The concurrency bound of the limiter never changes across events. -/
theorem runLimiterEvents_conc (beh : Nat → Bool) :
    ∀ (evs : List LEvent) (s s' : LimiterState),
      runLimiterEvents beh evs s = some s' → s'.concurrency = s.concurrency := by
  intro evs
  induction evs with
  | nil =>
      intro s s' hrun
      simp only [runLimiterEvents, Option.some.injEq] at hrun
      exact hrun ▸ rfl
  | cons ev rest ih =>
      intro s s' hrun
      cases ev with
      | add t =>
          simp only [runLimiterEvents] at hrun
          split at hrun
          · exact absurd hrun (by simp)
          · exact (ih _ _ hrun).trans rfl
      | settle t =>
          simp only [runLimiterEvents] at hrun
          split at hrun
          · exact (ih _ _ hrun).trans rfl
          · exact absurd hrun (by simp)

/-- The module-level limiter state satisfies the invariant. -/
theorem limiterInit_inv (beh : Nat → Bool) : LimiterInv beh limiterInit := by
  simp [LimiterInv, limiterInit, asyncCount]

/-- Claim C3.  For every task behaviour and every valid event schedule
starting from the module-level Limiter(10): (i) at most 10 task bodies hold
slots at any instant (running is bounded by 10 and equals the number of
admitted, unsettled asynchronous bodies); (ii) tasks are admitted strictly
in submission (FIFO) order - the submission record added always equals the
admission record started followed by the waiting queue - and no slot stays
free while a task waits (a non-empty queue forces running = 10, so as slots
free up the head of the queue is admitted next); (iii) a task whose body
throws synchronously releases its slot within the same cascade: it is
settled immediately and contributes nothing to the running count, which
counts asynchronous admitted-unsettled tasks exactly. -/
theorem limiter_bounded_fifo_slot_release (beh : Nat → Bool) (evs : List LEvent)
    (s : LimiterState) (h : runLimiterEvents beh evs limiterInit = some s) :
    s.running ≤ 10
    ∧ s.added = s.started ++ s.queue
    ∧ (s.queue ≠ [] → s.running = 10)
    ∧ (∀ t ∈ s.started, beh t = true → t ∈ s.settled)
    ∧ (s.started.filter (fun t => !beh t)).length
        = s.running + (s.settled.filter (fun t => !beh t)).length := by
  have hconc : s.concurrency = 10 := by
    rw [runLimiterEvents_conc beh evs limiterInit s h]
    rfl
  have hinv := runLimiterEvents_inv beh evs limiterInit s (limiterInit_inv beh) h
  obtain ⟨h1, h2, h3, h4, h5, h6, h7, h8⟩ := hinv
  rw [hconc] at h1 h4
  refine ⟨h1, h2, ?_, h6, ?_⟩
  · intro hq
    have := h4 hq
    omega
  · simpa [asyncCount] using h5

/-- Witness for C3: twelve submissions of asynchronous tasks followed by
one settlement; ten run, the eleventh was admitted on the freed slot, the
twelfth still queues. -/
theorem limiter_bounded_fifo_slot_release_witness :
    runLimiterEvents (fun _ => false)
        (((List.range 12).map LEvent.add) ++ [LEvent.settle 0]) limiterInit
      = some { concurrency := 10, running := 10, queue := [11],
               started := List.range 11, settled := [0], added := List.range 12 }
    ∧ ({ concurrency := 10, running := 10, queue := [11],
         started := List.range 11, settled := [0], added := List.range 12 }
          : LimiterState).running ≤ 10
    ∧ (List.range 12 : List Nat) = List.range 11 ++ [11]
    ∧ (([11] : List Nat) ≠ [] →
        ({ concurrency := 10, running := 10, queue := [11],
           started := List.range 11, settled := [0], added := List.range 12 }
             : LimiterState).running = 10) := by
  have h := limiter_bounded_fifo_slot_release (fun _ => false)
    (((List.range 12).map LEvent.add) ++ [LEvent.settle 0])
    { concurrency := 10, running := 10, queue := [11],
      started := List.range 11, settled := [0], added := List.range 12 }
    (by decide)
  exact ⟨by decide, h.1, by decide, fun _ => h.2.2.1 (by decide)⟩
